import Mathlib

set_option maxHeartbeats 1000000

/-! Formal model of the LLVMDwarf repository.

The repository generates DWARF debug information for a small C++ class and
writes a human-readable dump.  `main_simple.cpp` contains a string pool
(`SimpleStringPool`), a dump writer (`printDIE`), and a `main` that builds a
DIE tree and resolves it with LLVM's `DIE::computeOffsetsAndAbbrevs`.
`main.cpp` contains a post-processing loop that filters `.debug_line`
information out of the textual dump.  Below, the pool, the dump writer, the
tree construction and the filter loop are embedded from the sources; the
offset/abbreviation resolver (LLVM library code, not part of the repository
sources) is modelled from the specification. -/

/-- Terminator byte appended after every interned string (`data += '\0'`). -/
def nulChar : Char := Char.ofNat 0

/-- Model of `SimpleStringPool`: a byte buffer (`std::string data`) plus a map
from string content to the offset of its first occurrence
(`std::map<std::string, uint32_t> offsets`). -/
structure SimpleStringPool where
  data : List Char
  offsets : List (String × Nat)
deriving DecidableEq

/-- Lookup in the content-to-offset map (`offsets.find(str)`). -/
def lookupOffset : List (String × Nat) → String → Option Nat
  | [], _ => none
  | (t, o) :: rest, s => if t = s then some o else lookupOffset rest s

/-- Model of `SimpleStringPool::add`: return the existing offset when the
string was interned before, otherwise append the string plus one terminator
byte and record the offset it starts at.  The offset is computed by
`uint32_t offset = data.size()`, truncating the buffer size mod `2 ^ 32`. -/
def SimpleStringPool.add (p : SimpleStringPool) (s : String) : Nat × SimpleStringPool :=
  match lookupOffset p.offsets s with
  | some o => (o, p)
  | none =>
    (p.data.length % 2 ^ 32,
     { data := p.data ++ s.data ++ [nulChar],
       offsets := p.offsets ++ [(s, p.data.length % 2 ^ 32)] })

/-- Model of `SimpleStringPool::getData`. -/
def SimpleStringPool.getData (p : SimpleStringPool) : List Char := p.data

/-- Model of `SimpleStringPool::getSize`. -/
def SimpleStringPool.getSize (p : SimpleStringPool) : Nat := p.data.length

/-- Model of `SimpleStringPool::getStringAt`: empty string when the offset is
out of bounds, otherwise the characters from the offset up to the next
terminator (`std::string(data.c_str() + offset)`). -/
def SimpleStringPool.getStringAt (p : SimpleStringPool) (offset : Nat) : String :=
  if p.data.length ≤ offset then ""
  else String.mk ((p.data.drop offset).takeWhile (fun c => c != nulChar))

/-! DWARF constants used by the program (values from the DWARF standard as
exposed by `llvm/BinaryFormat/Dwarf.h`). -/

def DW_TAG_compile_unit : Nat := 0x11
def DW_TAG_base_type : Nat := 0x24
def DW_TAG_pointer_type : Nat := 0x0f
def DW_TAG_structure_type : Nat := 0x13
def DW_TAG_member : Nat := 0x0d

def DW_AT_producer : Nat := 0x25
def DW_AT_language : Nat := 0x13
def DW_AT_name : Nat := 0x03
def DW_AT_encoding : Nat := 0x3e
def DW_AT_byte_size : Nat := 0x0b
def DW_AT_type : Nat := 0x49
def DW_AT_data_member_location : Nat := 0x38

def DW_FORM_data2 : Nat := 0x05
def DW_FORM_data4 : Nat := 0x06
def DW_FORM_data8 : Nat := 0x07
def DW_FORM_data1 : Nat := 0x0b
def DW_FORM_strp : Nat := 0x0e
def DW_FORM_ref4 : Nat := 0x13

def DW_LANG_C_plus_plus : Nat := 0x04
def DW_ATE_signed : Nat := 0x05
def DW_ATE_signed_char : Nat := 0x06

/-! The DIE tree.  A `DIEValue` carries an attribute kind, a form and a datum:
either an integer (`DIEInteger`) or a reference to another entry (`DIEEntry`).
References are represented by the node identity of the target entry, modelling
the C++ pointer; distinct nodes of one tree carry distinct identities. -/

/-- The datum of an attribute value: `DIEValue::isInteger` or
`DIEValue::isEntry` (the latter holding the target entry's identity). -/
inductive DIEValueData where
  | isInteger (value : Nat)
  | isEntry (target : Nat)
deriving DecidableEq

/-- One attribute value of an entry: attribute kind, form, datum. -/
structure DIEValue where
  attr : Nat
  form : Nat
  data : DIEValueData
deriving DecidableEq

mutual
/-- A debug-information entry: node identity (modelling the C++ object
identity), tag, ordered attribute values, the forced has-children flag, and
ordered children. -/
inductive DIE where
  | mk (id : Nat) (tag : Nat) (values : List DIEValue) (force : Bool) (children : DIEList)
/-- An ordered list of sibling entries. -/
inductive DIEList where
  | nil
  | cons (head : DIE) (tail : DIEList)
end

def DIE.id : DIE → Nat
  | .mk i _ _ _ _ => i

def DIE.tag : DIE → Nat
  | .mk _ t _ _ _ => t

def DIE.values : DIE → List DIEValue
  | .mk _ _ vs _ _ => vs

def DIEList.isNil : DIEList → Bool
  | .nil => true
  | .cons _ _ => false

/-- Model of `DIE::hasChildren`: the forced flag or a non-empty child list. -/
def DIE.hasChildren : DIE → Bool
  | .mk _ _ _ force ch => force || !ch.isNil

/-- DWARF32/DWARF64 flavour (`dwarf::DwarfFormat`). -/
inductive DwarfFormat where
  | dwarf32
  | dwarf64
deriving DecidableEq

/-- Global layout parameters (`dwarf::FormParams`). -/
structure FormParams where
  version : Nat
  addrSize : Nat
  format : DwarfFormat

/-- Byte width of section offsets: 4 for DWARF32, 8 for DWARF64. -/
def FormParams.dwarfOffsetByteSize (fp : FormParams) : Nat :=
  match fp.format with
  | .dwarf32 => 4
  | .dwarf64 => 8

/-- Modelled from the spec: the encoded size of an attribute value depends
only on its form — fixed widths 1/2/4/8 for the fixed-size integer forms, the
offset size for string-pool references, a fixed 4-byte width for `ref4` entry
references.  (The size computation lives in LLVM's `DIE.cpp`, which is not
part of the repository sources.) -/
def sizeOfForm (fp : FormParams) (form : Nat) : Nat :=
  if form = DW_FORM_data1 then 1
  else if form = DW_FORM_data2 then 2
  else if form = DW_FORM_data4 then 4
  else if form = DW_FORM_data8 then 8
  else if form = DW_FORM_strp then fp.dwarfOffsetByteSize
  else if form = DW_FORM_ref4 then 4
  else 0

/-- Encoded size of one attribute value. -/
def DIEValue.sizeOf (fp : FormParams) (v : DIEValue) : Nat :=
  sizeOfForm fp v.form

/-- Total encoded size of an entry's attribute values. -/
def valuesSize (fp : FormParams) (vs : List DIEValue) : Nat :=
  (vs.map (DIEValue.sizeOf fp)).sum

/-- Fuelled helper for the byte size of an unsigned LEB128 encoding. -/
def ulebSizeAux : Nat → Nat → Nat
  | 0, _ => 1
  | fuel + 1, n => if n < 128 then 1 else 1 + ulebSizeAux fuel (n / 128)

/-- Byte size of the unsigned LEB128 encoding of `n` (`getULEB128Size`). -/
def ulebSize (n : Nat) : Nat := ulebSizeAux n n

/-- An abbreviation shape: tag, has-children flag, and the ordered
(attribute kind, form) pairs — attribute values take no part. -/
structure DIEAbbrev where
  tag : Nat
  children : Bool
  attrForms : List (Nat × Nat)
deriving DecidableEq

/-- The shape of an entry (`DIE::generateAbbrev`). -/
def DIE.generateAbbrev : DIE → DIEAbbrev
  | .mk _ tag vs force ch => ⟨tag, force || !ch.isNil, vs.map (fun v => (v.attr, v.form))⟩

/-- Index of the first occurrence of an abbreviation in the table. -/
def findIdx : List DIEAbbrev → DIEAbbrev → Option Nat
  | [], _ => none
  | x :: xs, a => if x = a then some 0 else (findIdx xs a).map (· + 1)

/-- Modelled from the spec: `DIEAbbrevSet::uniqueAbbreviation` (LLVM library
code, not part of the repository sources) — look the shape up in the table and
either return its existing id or append it and allocate the next sequential
id, ids starting at 1 in first-seen order. -/
def uniqueAbbreviation (s : List DIEAbbrev) (a : DIEAbbrev) : List DIEAbbrev × Nat :=
  match findIdx s a with
  | some i => (s, i + 1)
  | none => (s ++ [a], s.length + 1)

mutual
/-- A resolved entry: the original node annotated with its abbreviation
number and byte offset. -/
inductive ADIE where
  | mk (id : Nat) (tag : Nat) (values : List DIEValue) (force : Bool)
       (children : ADIEList) (abbrevNumber : Nat) (offset : Nat)
/-- An ordered list of resolved sibling entries. -/
inductive ADIEList where
  | nil
  | cons (head : ADIE) (tail : ADIEList)
end

def ADIE.id : ADIE → Nat
  | .mk i _ _ _ _ _ _ => i

def ADIE.tag : ADIE → Nat
  | .mk _ t _ _ _ _ _ => t

def ADIE.values : ADIE → List DIEValue
  | .mk _ _ vs _ _ _ _ => vs

def ADIE.abbrevNumber : ADIE → Nat
  | .mk _ _ _ _ _ n _ => n

def ADIE.offset : ADIE → Nat
  | .mk _ _ _ _ _ _ off => off

def ADIEList.isNil : ADIEList → Bool
  | .nil => true
  | .cons _ _ => false

/-- Model of `DIE::hasChildren` on a resolved entry. -/
def ADIE.hasChildren : ADIE → Bool
  | .mk _ _ _ force ch _ _ => force || !ch.isNil

/-- The shape of a resolved entry. -/
def ADIE.sig : ADIE → DIEAbbrev
  | .mk _ tag vs force ch _ _ => ⟨tag, force || !ch.isNil, vs.map (fun v => (v.attr, v.form))⟩

mutual
/-- Modelled from the spec: `DIE::computeOffsetsAndAbbrevs` (LLVM library
code, not part of the repository sources).  Walk the tree in pre-order; for
each entry assign its abbreviation id from the table, set its offset to the
running cursor, advance the cursor by the LEB128 size of the abbreviation id
plus the encoded sizes of the attribute values, lay out the children, and add
one terminator byte after the children when the entry has children.  Returns
the final table, the cursor past the entry, and the annotated entry. -/
def computeOffsetsAndAbbrevs (fp : FormParams) (s : List DIEAbbrev) (cuOffset : Nat) :
    DIE → List DIEAbbrev × Nat × ADIE
  | .mk i tag vs force ch =>
    let r := uniqueAbbreviation s (DIE.generateAbbrev (.mk i tag vs force ch))
    let cur1 := cuOffset + ulebSize r.2 + valuesSize fp vs
    let rc := computeOffsetsAndAbbrevsL fp r.1 cur1 ch
    let cur2 := if force || !ch.isNil then rc.2.1 + 1 else rc.2.1
    (rc.1, cur2, .mk i tag vs force rc.2.2 r.2 cuOffset)
/-- Lay out a list of sibling entries in order, threading table and cursor. -/
def computeOffsetsAndAbbrevsL (fp : FormParams) (s : List DIEAbbrev) (cuOffset : Nat) :
    DIEList → List DIEAbbrev × Nat × ADIEList
  | .nil => (s, cuOffset, .nil)
  | .cons d ds =>
    let r1 := computeOffsetsAndAbbrevs fp s cuOffset d
    let r2 := computeOffsetsAndAbbrevsL fp r1.1 r1.2.1 ds
    (r2.1, r2.2.1, .cons r1.2.2 r2.2.2)
end

mutual
/-- All entries of a resolved tree in pre-order: the entry itself, then the
entries of its children in order. -/
def ADIE.nodes : ADIE → List ADIE
  | .mk i t vs force ch n off => .mk i t vs force ch n off :: ADIEList.nodesL ch
/-- All entries of a resolved sibling list in pre-order. -/
def ADIEList.nodesL : ADIEList → List ADIE
  | .nil => []
  | .cons d ds => d.nodes ++ ADIEList.nodesL ds
end

mutual
/-- Offsets of a resolved tree in pre-order. -/
def ADIE.allOffsets : ADIE → List Nat
  | .mk _ _ _ _ ch _ off => off :: ADIEList.allOffsetsL ch
/-- Offsets of a resolved sibling list in pre-order. -/
def ADIEList.allOffsetsL : ADIEList → List Nat
  | .nil => []
  | .cons d ds => d.allOffsets ++ ADIEList.allOffsetsL ds
end

/-- Offsets of the top-level entries of a sibling list, in order. -/
def ADIEList.rootOffsets : ADIEList → List Nat
  | .nil => []
  | .cons d ds => d.offset :: rootOffsets ds

mutual
/-- The `(tag, abbreviationId, offset)` triples of a resolved tree in
pre-order traversal. -/
def ADIE.triples : ADIE → List (Nat × Nat × Nat)
  | .mk _ t _ _ ch n off => (t, n, off) :: ADIEList.triplesL ch
/-- The triples of a resolved sibling list in pre-order. -/
def ADIEList.triplesL : ADIEList → List (Nat × Nat × Nat)
  | .nil => []
  | .cons d ds => d.triples ++ ADIEList.triplesL ds
end

mutual
/-- At every entry of the tree the children's offsets strictly increase in
sibling order. -/
def childOffsetsSorted : ADIE → Prop
  | .mk _ _ _ _ ch _ _ => List.Chain' (· < ·) (ADIEList.rootOffsets ch) ∧ childOffsetsSortedL ch
/-- Predicate `childOffsetsSorted` holding at every entry of a sibling list. -/
def childOffsetsSortedL : ADIEList → Prop
  | .nil => True
  | .cons d ds => childOffsetsSorted d ∧ childOffsetsSortedL ds
end

mutual
/-- At every entry of the tree the entry's offset is strictly below every
descendant's offset. -/
def parentBelowDescendants : ADIE → Prop
  | .mk _ _ _ _ ch _ off => (∀ o ∈ ADIEList.allOffsetsL ch, off < o) ∧ parentBelowDescendantsL ch
/-- Predicate `parentBelowDescendants` holding at every entry of a sibling list. -/
def parentBelowDescendantsL : ADIEList → Prop
  | .nil => True
  | .cons d ds => parentBelowDescendants d ∧ parentBelowDescendantsL ds
end

/-! The dump writer (`printDIE` in `main_simple.cpp`). -/

/-- One hexadecimal digit character. -/
def hexDigitChar (n : Nat) : Char :=
  if n < 10 then Char.ofNat (48 + n) else Char.ofNat (87 + n)

/-- Fuelled helper producing the hexadecimal digits of `n` (empty for 0). -/
def hexDigitsAux : Nat → Nat → List Char
  | 0, _ => []
  | fuel + 1, n => if n = 0 then [] else hexDigitsAux fuel (n / 16) ++ [hexDigitChar (n % 16)]

/-- Model of `format("%x", n)`: minimal-width lower-case hexadecimal. -/
def hexMin (n : Nat) : String :=
  if n = 0 then "0" else String.mk (hexDigitsAux n n)

/-- Model of `format("%08x", n)`: hexadecimal, zero-padded to width 8. -/
def hexPad8 (n : Nat) : String :=
  let d := if n = 0 then ['0'] else hexDigitsAux n n
  String.mk (List.replicate (8 - d.length) '0' ++ d)

/-- Modelled from the spec: tag-name lookup (`dwarf::TagString`, LLVM library
code, not part of the repository sources); empty for unknown tags. -/
def tagString (t : Nat) : String :=
  if t = DW_TAG_compile_unit then "DW_TAG_compile_unit"
  else if t = DW_TAG_base_type then "DW_TAG_base_type"
  else if t = DW_TAG_pointer_type then "DW_TAG_pointer_type"
  else if t = DW_TAG_structure_type then "DW_TAG_structure_type"
  else if t = DW_TAG_member then "DW_TAG_member"
  else ""

/-- Modelled from the spec: attribute-kind-name lookup
(`dwarf::AttributeString`, LLVM library code, not part of the repository
sources). -/
def attributeString (a : Nat) : String :=
  if a = DW_AT_producer then "DW_AT_producer"
  else if a = DW_AT_language then "DW_AT_language"
  else if a = DW_AT_name then "DW_AT_name"
  else if a = DW_AT_encoding then "DW_AT_encoding"
  else if a = DW_AT_byte_size then "DW_AT_byte_size"
  else if a = DW_AT_type then "DW_AT_type"
  else if a = DW_AT_data_member_location then "DW_AT_data_member_location"
  else ""

/-- Modelled from the spec: form-name lookup (`dwarf::FormEncodingString`,
LLVM library code, not part of the repository sources). -/
def formEncodingString (f : Nat) : String :=
  if f = DW_FORM_data1 then "DW_FORM_data1"
  else if f = DW_FORM_data2 then "DW_FORM_data2"
  else if f = DW_FORM_data4 then "DW_FORM_data4"
  else if f = DW_FORM_data8 then "DW_FORM_data8"
  else if f = DW_FORM_strp then "DW_FORM_strp"
  else if f = DW_FORM_ref4 then "DW_FORM_ref4"
  else ""

/-- Modelled from the spec: encoding-name lookup
(`dwarf::AttributeEncodingString`, LLVM library code, not part of the
repository sources). -/
def attributeEncodingString (e : Nat) : String :=
  if e = DW_ATE_signed then "DW_ATE_signed"
  else if e = DW_ATE_signed_char then "DW_ATE_signed_char"
  else ""

/-- The offset stored at the entry with the given identity, looked up in
pre-order; models following the `DIEEntry` pointer and reading
`refDie.getOffset()`. -/
def derefOffset (root : ADIE) (tid : Nat) : Nat :=
  match root.nodes.find? (fun x => x.id == tid) with
  | some y => y.offset
  | none => 0

/-- The value text `printDIE` renders for one attribute: pool content plus
offset for `strp` integers, the encoding name for an encoding attribute, plain
hexadecimal otherwise, and the brace-wrapped target offset for entry
references. -/
def DIEValue.valueString (pool : SimpleStringPool) (root : ADIE) (v : DIEValue) : String :=
  match v.data with
  | .isInteger val =>
    if v.form = DW_FORM_strp then
      "\"" ++ pool.getStringAt val ++ "\" (strp offset: 0x" ++ hexPad8 val ++ ")"
    else if v.attr = DW_AT_encoding then attributeEncodingString val
    else "0x" ++ hexMin val
  | .isEntry tid => "\x7b0x" ++ hexPad8 (derefOffset root tid) ++ "\x7d"

/-- The indentation string of `indent` spaces. -/
def indentOf (indent : Nat) : String := String.mk (List.replicate indent ' ')

/-- The header line of one entry: indentation, offset in fixed-width
hexadecimal, tag name, abbreviation number, and a trailing ` *` when the entry
has children. -/
def headerLine (indent : Nat) (tag : Nat) (hasKids : Bool) (n offset : Nat) : String :=
  indentOf indent ++ "0x" ++ hexPad8 offset ++ ": " ++ tagString tag ++
    " [" ++ toString n ++ "]" ++ (if hasKids then " *" else "")

/-- One attribute line: indentation plus two spaces, attribute-kind name,
decoded value, form name. -/
def attrLine (pool : SimpleStringPool) (root : ADIE) (indent : Nat) (v : DIEValue) : String :=
  indentOf indent ++ "  " ++ attributeString v.attr ++ " = " ++
    v.valueString pool root ++ " [" ++ formEncodingString v.form ++ "]"

/-- The closing marker line emitted after the children of an entry. -/
def closingLine (indent : Nat) : String := indentOf indent ++ "NULL"

mutual
/-- Model of `printDIE`: append to the output stream `acc` one header line,
one line per attribute (in order), the children at indentation increased by 2,
and a closing `NULL` line when the entry has children. -/
def printDIE (pool : SimpleStringPool) (root : ADIE) (die : ADIE) (indent : Nat)
    (acc : List String) : List String :=
  match die with
  | .mk _ tag vs force ch n off =>
    let acc1 := acc ++ [headerLine indent tag (force || !ch.isNil) n off]
    let acc2 := vs.foldl (fun a v => a ++ [attrLine pool root indent v]) acc1
    let acc3 := printDIEL pool root ch (indent + 2) acc2
    if force || !ch.isNil then acc3 ++ [closingLine indent] else acc3
/-- Model of the child loop of `printDIE`: print a sibling list in order. -/
def printDIEL (pool : SimpleStringPool) (root : ADIE) :
    ADIEList → Nat → List String → List String
  | .nil, _, acc => acc
  | .cons d ds, indent, acc => printDIEL pool root ds indent (printDIE pool root d indent acc)
end

mutual
/-- The document the dump writer produces for one entry, described
compositionally: header, one line per attribute, the children's documents at
indentation +2, a closing line exactly when the entry has children. -/
def dieLines (pool : SimpleStringPool) (root : ADIE) (die : ADIE) (indent : Nat) : List String :=
  match die with
  | .mk _ tag vs force ch n off =>
    headerLine indent tag (force || !ch.isNil) n off ::
      (vs.map (attrLine pool root indent) ++
        dieLinesL pool root ch (indent + 2) ++
        (if force || !ch.isNil then [closingLine indent] else []))
/-- The concatenated documents of a sibling list. -/
def dieLinesL (pool : SimpleStringPool) (root : ADIE) : ADIEList → Nat → List String
  | .nil, _ => []
  | .cons d ds, indent => dieLines pool root d indent ++ dieLinesL pool root ds indent
end

/-! The `.debug_line` filter loop of `main.cpp`. -/

/-- Check that the needle occurs at the start of the haystack. -/
def leadsWith : List Char → List Char → Bool
  | [], _ => true
  | _ :: _, [] => false
  | a :: as, b :: bs => a == b && leadsWith as bs

/-- Check that the needle occurs somewhere in the haystack, modelling
`line.find(needle) != std::string::npos`. -/
def hasSub : List Char → List Char → Bool
  | n, [] => leadsWith n []
  | n, h :: hs => leadsWith n (h :: hs) || hasSub n hs

def debugLineMarker : List Char := ".debug_line contents:".toList

def debugSectionMarker : List Char := ".debug_".toList

def contentsMarker : List Char := "contents:".toList

/-- A line that opens the `.debug_line` section. -/
def isStartLine (l : List Char) : Bool := hasSub debugLineMarker l

/-- A section header line: it mentions `.debug_` and `contents:`. -/
def isSectionHeaderLine (l : List Char) : Bool :=
  hasSub debugSectionMarker l && hasSub contentsMarker l

/-- Model of the filter loop in `main.cpp`: for each line, entering the
`.debug_line` section drops the line and sets the flag; a new section header
clears the flag; the line is written exactly when the flag is clear. -/
def mainFilterLoop : Bool → List (List Char) → List (List Char)
  | _, [] => []
  | inDebugLine, l :: ls =>
    if hasSub debugLineMarker l then mainFilterLoop true ls
    else
      let inDL := if inDebugLine && (hasSub debugSectionMarker l && hasSub contentsMarker l)
        then false else inDebugLine
      if inDL then mainFilterLoop inDL ls else l :: mainFilterLoop inDL ls

/-- Modelled from the spec's words for the claim: every line from a
`.debug_line contents:` section header up to, but not including, the next
`.debug_` section header line is omitted; every other line is written through
unchanged and in order.  In omitting mode lines are dropped until a section
header appears; that header is processed in normal mode, so it is itself
written — unless it opens `.debug_line` again, which starts a new omitted
region including the header itself. -/
def specDebugLineFilter : Bool → List (List Char) → List (List Char)
  | _, [] => []
  | false, l :: ls =>
    if isStartLine l then specDebugLineFilter true ls else l :: specDebugLineFilter false ls
  | true, l :: ls =>
    if isSectionHeaderLine l then
      (if isStartLine l then specDebugLineFilter true ls else l :: specDebugLineFilter false ls)
    else specDebugLineFilter true ls

/-! The concrete tree and pool built by `main` in `main_simple.cpp`. -/

def mainPool0 : SimpleStringPool := ⟨[], []⟩

def mainPool1 : SimpleStringPool := (mainPool0.add "warpo").2

def mainPool2 : SimpleStringPool := (mainPool1.add "int").2

def mainPool3 : SimpleStringPool := (mainPool2.add "char").2

def mainPool4 : SimpleStringPool := (mainPool3.add "MyClass").2

def mainPool5 : SimpleStringPool := (mainPool4.add "x").2

def mainPool6 : SimpleStringPool := (mainPool5.add "y").2

/-- The string pool after all interning calls of `main`. -/
def mainStringPool : SimpleStringPool := (mainPool6.add "name").2

/-- The `int` base type entry (node identity 1). -/
def intTypeDIE : DIE :=
  .mk 1 DW_TAG_base_type
    [⟨DW_AT_name, DW_FORM_strp, .isInteger (mainPool1.add "int").1⟩,
     ⟨DW_AT_encoding, DW_FORM_data1, .isInteger DW_ATE_signed⟩,
     ⟨DW_AT_byte_size, DW_FORM_data1, .isInteger 4⟩]
    false .nil

/-- The `char` base type entry (node identity 2). -/
def charTypeDIE : DIE :=
  .mk 2 DW_TAG_base_type
    [⟨DW_AT_name, DW_FORM_strp, .isInteger (mainPool2.add "char").1⟩,
     ⟨DW_AT_encoding, DW_FORM_data1, .isInteger DW_ATE_signed_char⟩,
     ⟨DW_AT_byte_size, DW_FORM_data1, .isInteger 1⟩]
    false .nil

/-- The `char*` pointer type entry (node identity 3), referencing `char`. -/
def charPtrTypeDIE : DIE :=
  .mk 3 DW_TAG_pointer_type
    [⟨DW_AT_byte_size, DW_FORM_data1, .isInteger 8⟩,
     ⟨DW_AT_type, DW_FORM_ref4, .isEntry 2⟩]
    false .nil

/-- Member `x` (node identity 5), referencing `int`. -/
def memberXDIE : DIE :=
  .mk 5 DW_TAG_member
    [⟨DW_AT_name, DW_FORM_strp, .isInteger (mainPool4.add "x").1⟩,
     ⟨DW_AT_type, DW_FORM_ref4, .isEntry 1⟩,
     ⟨DW_AT_data_member_location, DW_FORM_data1, .isInteger 0⟩]
    false .nil

/-- Member `y` (node identity 6), referencing `int`. -/
def memberYDIE : DIE :=
  .mk 6 DW_TAG_member
    [⟨DW_AT_name, DW_FORM_strp, .isInteger (mainPool5.add "y").1⟩,
     ⟨DW_AT_type, DW_FORM_ref4, .isEntry 1⟩,
     ⟨DW_AT_data_member_location, DW_FORM_data1, .isInteger 4⟩]
    false .nil

/-- Member `name` (node identity 7), referencing `char*`. -/
def memberNameDIE : DIE :=
  .mk 7 DW_TAG_member
    [⟨DW_AT_name, DW_FORM_strp, .isInteger (mainPool6.add "name").1⟩,
     ⟨DW_AT_type, DW_FORM_ref4, .isEntry 3⟩,
     ⟨DW_AT_data_member_location, DW_FORM_data1, .isInteger 8⟩]
    false .nil

/-- The `MyClass` structure type entry (node identity 4) with the three members. -/
def classTypeDIE : DIE :=
  .mk 4 DW_TAG_structure_type
    [⟨DW_AT_name, DW_FORM_strp, .isInteger (mainPool3.add "MyClass").1⟩,
     ⟨DW_AT_byte_size, DW_FORM_data1, .isInteger 24⟩]
    false
    (.cons memberXDIE (.cons memberYDIE (.cons memberNameDIE .nil)))

/-- The compile-unit root entry (node identity 0) with its four children. -/
def cuDIE : DIE :=
  .mk 0 DW_TAG_compile_unit
    [⟨DW_AT_producer, DW_FORM_strp, .isInteger (mainPool0.add "warpo").1⟩,
     ⟨DW_AT_language, DW_FORM_data2, .isInteger DW_LANG_C_plus_plus⟩]
    false
    (.cons intTypeDIE (.cons charTypeDIE (.cons charPtrTypeDIE (.cons classTypeDIE .nil))))

/-- The layout parameters of `main`: `{4, 4, dwarf::DWARF32}`. -/
def formParams0 : FormParams := ⟨4, 4, .dwarf32⟩

/-- The resolved tree produced by
`cu->computeOffsetsAndAbbrevs(formParams, abbrevSet, 11)`. -/
def mainResolved : ADIE := (computeOffsetsAndAbbrevs formParams0 [] 11 cuDIE).2.2

/-- The pool states reachable through the public interface: the empty pool
and everything `add` produces. -/
inductive Reachable : SimpleStringPool → Prop where
  | empty : Reachable ⟨[], []⟩
  | step (p : SimpleStringPool) (s : String) : Reachable p → Reachable (p.add s).2

/-- Consistency of the pool: every map entry points at its own string,
followed by a terminator, inside the buffer. -/
def SimpleStringPool.WF (p : SimpleStringPool) : Prop :=
  ∀ e ∈ p.offsets, ∃ rest, p.data.drop e.2 = e.1.data ++ nulChar :: rest

/-- The child list of a resolved entry. -/
def ADIE.children : ADIE → ADIEList
  | .mk _ _ _ _ ch _ _ => ch

/-- A string of `2 ^ 32` bytes, driving the pool buffer past the 32-bit
offset range. -/
def bigA : String := String.mk (List.replicate (2 ^ 32) 'a')

/-- The reachable pool state after interning `bigA` into the empty pool: its
buffer holds `2 ^ 32 + 1` bytes, so the next interning call truncates. -/
def bigPool : SimpleStringPool := (SimpleStringPool.add ⟨[], []⟩ bigA).2

/-! Lemmas about the string pool. -/

/-- A successful map lookup witnesses a map entry. -/
theorem lookupOffset_mem {l : List (String × Nat)} {s : String} {o : Nat}
    (h : lookupOffset l s = some o) : (s, o) ∈ l := by
  induction l with
  | nil => simp [lookupOffset] at h
  | cons e rest ih =>
    obtain ⟨t, o'⟩ := e
    by_cases ht : t = s
    · subst ht
      simp [lookupOffset] at h
      subst h
      exact List.mem_cons_self _ _
    · simp [lookupOffset, ht] at h
      exact List.mem_cons_of_mem _ (ih h)

/-- A failed lookup skips the whole first map. -/
theorem lookupOffset_append_of_none {l : List (String × Nat)} {s : String}
    (h : lookupOffset l s = none) (t : List (String × Nat)) :
    lookupOffset (l ++ t) s = lookupOffset t s := by
  induction l with
  | nil => rfl
  | cons e rest ih =>
    obtain ⟨t0, o0⟩ := e
    by_cases he : t0 = s
    · simp [lookupOffset, he] at h
    · simp only [lookupOffset, he, if_false] at h
      simp only [List.cons_append, lookupOffset, he, if_false]
      exact ih h

/-- Projection of a literally constructed string. -/
theorem string_data_mk (l : List Char) : (String.mk l).data = l := rfl

/-- The offset `add` returns when the string is not yet interned. -/
theorem add_fst_of_lookup_none {p : SimpleStringPool} {s : String}
    (h : lookupOffset p.offsets s = none) :
    (p.add s).1 = p.data.length % 2 ^ 32 := by
  unfold SimpleStringPool.add
  rw [h]

/-- The buffer `add` produces when the string is not yet interned. -/
theorem add_data_of_lookup_none {p : SimpleStringPool} {s : String}
    (h : lookupOffset p.offsets s = none) :
    ((p.add s).2).data = p.data ++ s.data ++ [nulChar] := by
  unfold SimpleStringPool.add
  rw [h]

/-- The empty pool is consistent. -/
theorem wf_empty : SimpleStringPool.WF ⟨[], []⟩ := by
  intro e he
  simp at he

/-- Interning preserves consistency while the buffer is small enough that the
32-bit offset truncation cannot fire. -/
theorem wf_add (p : SimpleStringPool) (s : String) (h : p.WF)
    (hlt : p.data.length < 2 ^ 32) : ((p.add s).2).WF := by
  unfold SimpleStringPool.add
  cases hl : lookupOffset p.offsets s with
  | some o => exact h
  | none =>
    intro e he
    simp only [List.mem_append, List.mem_singleton] at he
    rcases he with he | he
    · obtain ⟨rest, hrest⟩ := h e he
      have hlen : e.2 ≤ p.data.length := by
        have hc := congrArg List.length hrest
        simp [List.length_drop] at hc
        omega
      refine ⟨rest ++ s.data ++ [nulChar], ?_⟩
      rw [List.append_assoc, List.drop_append_eq_append_drop,
        Nat.sub_eq_zero_of_le hlen, List.drop_zero, hrest]
      simp
    · subst he
      refine ⟨[], ?_⟩
      have hm : p.data.length % 2 ^ 32 = p.data.length := Nat.mod_eq_of_lt hlt
      simp only [hm]
      rw [List.append_assoc, List.drop_append_eq_append_drop]
      simp

/-- The buffer only grows across an interning call. -/
theorem data_length_le_add (p : SimpleStringPool) (s : String) :
    p.data.length ≤ ((p.add s).2).data.length := by
  cases h : lookupOffset p.offsets s with
  | some o => simp [SimpleStringPool.add, h]
  | none => simp [SimpleStringPool.add, h]

/-- Every reachable pool state whose buffer size is still below `2 ^ 32` is
consistent: the buffer only grows, so no earlier call truncated either. -/
theorem reachable_wf_of_lt {p : SimpleStringPool} (h : Reachable p) :
    p.data.length < 2 ^ 32 → p.WF := by
  induction h with
  | empty => exact fun _ => wf_empty
  | step q s hq ih =>
    intro hlt
    have hle := data_length_le_add q s
    exact wf_add q s (ih (by omega)) (by omega)

/-- Scanning stops exactly at the terminator after a terminator-free string. -/
theorem takeWhile_no_nul (l r : List Char) (h : ∀ c ∈ l, c ≠ nulChar) :
    List.takeWhile (fun c => c != nulChar) (l ++ nulChar :: r) = l := by
  induction l with
  | nil => simp [List.takeWhile_cons]
  | cons c cs ih =>
    have hc : c ≠ nulChar := h c (List.mem_cons_self _ _)
    simp only [List.cons_append, List.takeWhile_cons, bne_iff_ne, ne_eq, hc,
      not_false_eq_true, if_true]
    rw [ih (fun x hx => h x (List.mem_cons_of_mem _ hx))]

/-- C4: calling `add` with the same string twice returns the same offset both
times; the second call leaves the pool, and hence its byte size, unchanged. -/
theorem add_idempotent (p : SimpleStringPool) (s : String) :
    ((p.add s).2.add s).1 = (p.add s).1 ∧
    ((p.add s).2.add s).2.getSize = ((p.add s).2).getSize ∧
    ((p.add s).2.add s).2 = (p.add s).2 := by
  cases h : lookupOffset p.offsets s with
  | some o => simp [SimpleStringPool.add, h]
  | none =>
    have h2 : lookupOffset (p.offsets ++ [(s, p.data.length % 2 ^ 32)]) s =
        some (p.data.length % 2 ^ 32) := by
      rw [lookupOffset_append_of_none h]
      simp [lookupOffset]
    simp only [SimpleStringPool.add, h, h2]
    exact ⟨trivial, trivial, trivial⟩

/-- C5 (amended): for a terminator-free string, looking up the offset that
interning returned reconstructs the string exactly, in any reachable pool
state whose buffer size is still below `2 ^ 32` — the bound under which the
32-bit offset truncation in `add` cannot have fired. -/
theorem getStringAt_add_bounded (p : SimpleStringPool) (s : String)
    (hr : Reachable p) (hlt : p.data.length < 2 ^ 32)
    (hs : ∀ c ∈ s.data, c ≠ nulChar) :
    ((p.add s).2).getStringAt (p.add s).1 = s := by
  have hWF := reachable_wf_of_lt hr hlt
  cases h : lookupOffset p.offsets s with
  | some o =>
    obtain ⟨rest, hrest⟩ := hWF (s, o) (lookupOffset_mem h)
    have hlen : o < p.data.length := by
      have hc := congrArg List.length hrest
      simp [List.length_drop] at hc
      omega
    simp only [SimpleStringPool.add, h, SimpleStringPool.getStringAt,
      Nat.not_le.mpr hlen, if_false]
    rw [hrest, takeWhile_no_nul _ _ hs]
  | none =>
    have hm : p.data.length % 2 ^ 32 = p.data.length := Nat.mod_eq_of_lt hlt
    have hlen : ¬ (p.data ++ s.data ++ [nulChar]).length ≤ p.data.length % 2 ^ 32 := by
      rw [hm]
      simp
    simp only [SimpleStringPool.add, h, SimpleStringPool.getStringAt, hlen, if_false]
    rw [hm, List.append_assoc, List.drop_append_eq_append_drop]
    simp only [List.drop_length, Nat.sub_self, List.drop_zero, List.nil_append]
    rw [show s.data ++ [nulChar] = s.data ++ nulChar :: [] from rfl,
      takeWhile_no_nul _ _ hs]

/-- Witness for the amended C5 at the empty pool and the string `"int"`. -/
theorem getStringAt_add_bounded_w :
    ((mainPool0.add "int").2).getStringAt (mainPool0.add "int").1 = "int" :=
  getStringAt_add_bounded mainPool0 "int" Reachable.empty (by decide) (by decide)

/-- C6: a lookup at an offset at or beyond the pool's byte size returns the
empty string. -/
theorem getStringAt_out_of_bounds (p : SimpleStringPool) (offset : Nat)
    (h : p.getSize ≤ offset) : p.getStringAt offset = "" := by
  unfold SimpleStringPool.getSize at h
  simp [SimpleStringPool.getStringAt, h]

/-- Witness for C6 at the pool of `main` and offset 32 (its exact size). -/
theorem getStringAt_out_of_bounds_w : mainStringPool.getStringAt 32 = "" :=
  getStringAt_out_of_bounds mainStringPool 32 (by decide)

/-- A reachable pool's buffer is empty or ends with a terminator. -/
theorem reachable_ends_nul {p : SimpleStringPool} (h : Reachable p) :
    p.data = [] ∨ ∃ l, p.data = l ++ [nulChar] := by
  induction h with
  | empty => exact Or.inl rfl
  | step q s _ ih =>
    cases hl : lookupOffset q.offsets s with
    | some o => simpa [SimpleStringPool.add, hl] using ih
    | none =>
      right
      refine ⟨q.data ++ s.data, ?_⟩
      simp [SimpleStringPool.add, hl]

/-- C10: in any reachable pool state, a newly appended string is followed by
exactly one terminator byte, the buffer (if non-empty) ends with a terminator,
every in-bounds offset has a terminator somewhere after it in the buffer, and
an offset exactly equal to the pool's size yields the empty string. -/
theorem pool_terminator_invariants (p : SimpleStringPool) (s : String) (off : Nat)
    (hr : Reachable p) :
    (lookupOffset p.offsets s = none →
      ((p.add s).2).data = p.data ++ s.data ++ [nulChar]) ∧
    (p.data ≠ [] → ∃ l, p.data = l ++ [nulChar]) ∧
    (off < p.getSize → nulChar ∈ p.data.drop off) ∧
    p.getStringAt p.getSize = "" := by
  refine ⟨?_, ?_, ?_, ?_⟩
  · intro h
    simp [SimpleStringPool.add, h]
  · intro hne
    rcases reachable_ends_nul hr with h | h
    · exact absurd h hne
    · exact h
  · intro hlt
    unfold SimpleStringPool.getSize at hlt
    rcases reachable_ends_nul hr with h | ⟨l, hl⟩
    · rw [h] at hlt
      simp at hlt
    · rw [hl] at hlt ⊢
      simp only [List.length_append, List.length_singleton] at hlt
      rw [List.drop_append_eq_append_drop, Nat.sub_eq_zero_of_le (by omega),
        List.drop_zero]
      simp
  · simp [SimpleStringPool.getStringAt, SimpleStringPool.getSize]

/-- Witness for C10 at the reachable pool holding `"warpo"`. -/
theorem pool_terminator_invariants_w :
    (lookupOffset mainPool1.offsets "int" = none →
      ((mainPool1.add "int").2).data = mainPool1.data ++ "int".data ++ [nulChar]) ∧
    (mainPool1.data ≠ [] → ∃ l, mainPool1.data = l ++ [nulChar]) ∧
    (2 < mainPool1.getSize → nulChar ∈ mainPool1.data.drop 2) ∧
    mainPool1.getStringAt mainPool1.getSize = "" :=
  pool_terminator_invariants mainPool1 "int" 2
    (Reachable.step mainPool0 "warpo" Reachable.empty)

/-! Lemmas about substring search and the filter loop. -/

/-- Characterization of a match at the front. -/
theorem leadsWith_iff (n : List Char) : ∀ h : List Char,
    leadsWith n h = true ↔ ∃ v, h = n ++ v := by
  induction n with
  | nil =>
    intro h
    simp [leadsWith]
  | cons a as ih =>
    intro h
    cases h with
    | nil =>
      simp [leadsWith]
    | cons b bs =>
      simp only [leadsWith, Bool.and_eq_true, beq_iff_eq, ih, List.cons_append,
        List.cons.injEq]
      constructor
      · rintro ⟨rfl, v, rfl⟩
        exact ⟨v, rfl, rfl⟩
      · rintro ⟨v, rfl, rfl⟩
        exact ⟨rfl, v, rfl⟩

/-- Characterization of a match anywhere. -/
theorem hasSub_iff (n : List Char) : ∀ h : List Char,
    hasSub n h = true ↔ ∃ u v, h = u ++ n ++ v := by
  intro h
  induction h with
  | nil =>
    simp only [hasSub, leadsWith_iff]
    constructor
    · rintro ⟨v, hv⟩
      exact ⟨[], v, by simpa using hv⟩
    · rintro ⟨u, v, huv⟩
      rcases List.append_eq_nil.mp huv.symm with ⟨h1, h2⟩
      rcases List.append_eq_nil.mp h1 with ⟨h3, h4⟩
      exact ⟨[], by simp [h4]⟩
  | cons c hs ih =>
    simp only [hasSub, Bool.or_eq_true, leadsWith_iff, ih]
    constructor
    · rintro (⟨v, hv⟩ | ⟨u, v, huv⟩)
      · exact ⟨[], v, by simpa using hv⟩
      · exact ⟨c :: u, v, by simp [huv]⟩
    · rintro ⟨u, v, huv⟩
      cases u with
      | nil =>
        exact Or.inl ⟨v, by simpa using huv⟩
      | cons u0 us =>
        refine Or.inr ⟨us, v, ?_⟩
        have := (List.cons.injEq u0 (us ++ n ++ v) c hs).mp (by simpa using huv.symm)
        exact this.2.symm

/-- Substring search is transitive. -/
theorem hasSub_trans {a b c : List Char} (h1 : hasSub a b = true)
    (h2 : hasSub b c = true) : hasSub a c = true := by
  rw [hasSub_iff] at h1 h2 ⊢
  obtain ⟨u, v, rfl⟩ := h1
  obtain ⟨u', v', rfl⟩ := h2
  exact ⟨u' ++ u, v ++ v', by simp⟩

/-- A `.debug_line contents:` line is itself a section header line. -/
theorem start_implies_header (l : List Char) (h : isStartLine l = true) :
    isSectionHeaderLine l = true := by
  unfold isStartLine at h
  unfold isSectionHeaderLine
  have h1 : hasSub debugSectionMarker debugLineMarker = true := by decide
  have h2 : hasSub contentsMarker debugLineMarker = true := by decide
  simp only [Bool.and_eq_true]
  exact ⟨hasSub_trans h1 h, hasSub_trans h2 h⟩

/-- The filter loop of `main.cpp` agrees with the region description, from
any initial state. -/
theorem mainFilterLoop_eq_spec (ls : List (List Char)) :
    ∀ b, mainFilterLoop b ls = specDebugLineFilter b ls := by
  induction ls with
  | nil =>
    intro b
    cases b <;> rfl
  | cons l ls ih =>
    intro b
    by_cases hS : hasSub debugLineMarker l
    · have hH : isSectionHeaderLine l = true :=
        start_implies_header l (by simpa [isStartLine] using hS)
      cases b
      · simp [mainFilterLoop, specDebugLineFilter, hS, isStartLine, ih]
      · simp [mainFilterLoop, specDebugLineFilter, hS, hH, isStartLine, ih]
    · cases b
      · simp [mainFilterLoop, specDebugLineFilter, hS, isStartLine, ih]
      · by_cases hH : (hasSub debugSectionMarker l && hasSub contentsMarker l)
        · simp [mainFilterLoop, specDebugLineFilter, hS, hH, isStartLine,
            isSectionHeaderLine, ih]
        · simp [mainFilterLoop, specDebugLineFilter, hS, hH, isStartLine,
            isSectionHeaderLine, ih]

/-- C9: the dump step's filter omits exactly the lines from each
`.debug_line contents:` header up to, but not including, the next `.debug_`
section header line, and writes every other line through unchanged and in
order. -/
theorem debug_line_filter_spec (lines : List (List Char)) :
    mainFilterLoop false lines = specDebugLineFilter false lines :=
  mainFilterLoop_eq_spec lines false

/-! Lemmas about the resolver: offsets. -/

/-- A LEB128 encoding occupies at least one byte. -/
theorem one_le_ulebSizeAux (fuel : Nat) : ∀ n, 1 ≤ ulebSizeAux fuel n := by
  induction fuel with
  | zero =>
    intro n
    simp [ulebSizeAux]
  | succ f ih =>
    intro n
    unfold ulebSizeAux
    split
    · exact Nat.le_refl 1
    · exact Nat.le_add_right 1 _

/-- The LEB128 size of any number is at least one byte. -/
theorem one_le_ulebSize (n : Nat) : 1 ≤ ulebSize n := one_le_ulebSizeAux n n

mutual
/-- Offset bounds of the resolver on one entry: the entry's offset is the
incoming cursor, the cursor strictly advances, every offset of the subtree
lies in the consumed window, and the two ordering invariants hold. -/
theorem computeOA_bounds (fp : FormParams) (s : List DIEAbbrev) (cur : Nat) (d : DIE) :
    ((computeOffsetsAndAbbrevs fp s cur d).2.2).offset = cur ∧
    cur < (computeOffsetsAndAbbrevs fp s cur d).2.1 ∧
    (∀ o ∈ ((computeOffsetsAndAbbrevs fp s cur d).2.2).allOffsets,
      cur ≤ o ∧ o < (computeOffsetsAndAbbrevs fp s cur d).2.1) ∧
    childOffsetsSorted ((computeOffsetsAndAbbrevs fp s cur d).2.2) ∧
    parentBelowDescendants ((computeOffsetsAndAbbrevs fp s cur d).2.2) := by
  cases d with
  | mk i tag vs force ch =>
    obtain ⟨hle, hall, hroot, hchain, hsortedL, hbelowL⟩ :=
      computeOAL_bounds fp
        (uniqueAbbreviation s (DIE.generateAbbrev (DIE.mk i tag vs force ch))).1
        (cur + ulebSize (uniqueAbbreviation s (DIE.generateAbbrev (DIE.mk i tag vs force ch))).2
          + valuesSize fp vs) ch
    have hcur1 : cur <
        cur + ulebSize (uniqueAbbreviation s (DIE.generateAbbrev (DIE.mk i tag vs force ch))).2
          + valuesSize fp vs := by
      have := one_le_ulebSize
        (uniqueAbbreviation s (DIE.generateAbbrev (DIE.mk i tag vs force ch))).2
      omega
    simp only [computeOffsetsAndAbbrevs]
    refine ⟨rfl, ?_, ?_, ⟨hchain, hsortedL⟩, ?_, hbelowL⟩
    · split
      · omega
      · omega
    · intro o ho
      simp only [ADIE.allOffsets, List.mem_cons] at ho
      rcases ho with rfl | ho
      · refine ⟨Nat.le_refl _, ?_⟩
        split
        · omega
        · omega
      · obtain ⟨h1, h2⟩ := hall o ho
        refine ⟨by omega, ?_⟩
        split
        · omega
        · omega
    · intro o ho
      obtain ⟨h1, h2⟩ := hall o ho
      omega
/-- Offset bounds of the resolver on a sibling list. -/
theorem computeOAL_bounds (fp : FormParams) (s : List DIEAbbrev) (cur : Nat) (ds : DIEList) :
    cur ≤ (computeOffsetsAndAbbrevsL fp s cur ds).2.1 ∧
    (∀ o ∈ ADIEList.allOffsetsL ((computeOffsetsAndAbbrevsL fp s cur ds).2.2),
      cur ≤ o ∧ o < (computeOffsetsAndAbbrevsL fp s cur ds).2.1) ∧
    (∀ o ∈ ADIEList.rootOffsets ((computeOffsetsAndAbbrevsL fp s cur ds).2.2), cur ≤ o) ∧
    List.Chain' (· < ·) (ADIEList.rootOffsets ((computeOffsetsAndAbbrevsL fp s cur ds).2.2)) ∧
    childOffsetsSortedL ((computeOffsetsAndAbbrevsL fp s cur ds).2.2) ∧
    parentBelowDescendantsL ((computeOffsetsAndAbbrevsL fp s cur ds).2.2) := by
  cases ds with
  | nil =>
    simp [computeOffsetsAndAbbrevsL, ADIEList.allOffsetsL, ADIEList.rootOffsets,
      childOffsetsSortedL, parentBelowDescendantsL]
  | cons d ds =>
    obtain ⟨hoff, hlt, hall1, hsorted1, hbelow1⟩ := computeOA_bounds fp s cur d
    obtain ⟨hle2, hall2, hroot2, hchain2, hsortedL2, hbelowL2⟩ :=
      computeOAL_bounds fp (computeOffsetsAndAbbrevs fp s cur d).1
        (computeOffsetsAndAbbrevs fp s cur d).2.1 ds
    simp only [computeOffsetsAndAbbrevsL]
    refine ⟨by omega, ?_, ?_, ?_, ⟨hsorted1, hsortedL2⟩, ⟨hbelow1, hbelowL2⟩⟩
    · intro o ho
      simp only [ADIEList.allOffsetsL, List.mem_append] at ho
      rcases ho with ho | ho
      · obtain ⟨h1, h2⟩ := hall1 o ho
        exact ⟨h1, by omega⟩
      · obtain ⟨h1, h2⟩ := hall2 o ho
        exact ⟨by omega, h2⟩
    · intro o ho
      simp only [ADIEList.rootOffsets, List.mem_cons] at ho
      rcases ho with rfl | ho
      · omega
      · have := hroot2 o ho
        omega
    · simp only [ADIEList.rootOffsets]
      rw [List.chain'_cons']
      refine ⟨?_, hchain2⟩
      intro y hy
      have hmem := List.mem_of_mem_head? hy
      have := hroot2 y hmem
      omega
end

/-- C2: after resolution, offsets strictly increase along the pre-order
traversal — within every parent the children's offsets strictly increase in
sibling order, and every entry's offset is strictly below the offset of each
of its descendants. -/
theorem offsets_strictly_increasing (fp : FormParams) (s : List DIEAbbrev)
    (cuOffset : Nat) (d : DIE) :
    childOffsetsSorted ((computeOffsetsAndAbbrevs fp s cuOffset d).2.2) ∧
    parentBelowDescendants ((computeOffsetsAndAbbrevs fp s cuOffset d).2.2) :=
  ⟨(computeOA_bounds fp s cuOffset d).2.2.2.1, (computeOA_bounds fp s cuOffset d).2.2.2.2⟩

/-! Lemmas about the resolver: abbreviation ids. -/

/-- A failed index search means the shape is absent. -/
theorem findIdx_none_not_mem : ∀ {s : List DIEAbbrev} {a : DIEAbbrev},
    findIdx s a = none → a ∉ s := by
  intro s a h
  induction s with
  | nil => simp
  | cons x xs ih =>
    unfold findIdx at h
    split at h
    · simp at h
    · next hne =>
      rw [Option.map_eq_none'] at h
      simp only [List.mem_cons, not_or]
      exact ⟨fun heq => hne heq.symm, ih h⟩

/-- A successful index search survives extending the table on the right. -/
theorem findIdx_append_of_some : ∀ {s : List DIEAbbrev} {a : DIEAbbrev} {i : Nat},
    findIdx s a = some i → ∀ t, findIdx (s ++ t) a = some i := by
  intro s
  induction s with
  | nil =>
    intro a i h
    simp [findIdx] at h
  | cons x xs ih =>
    intro a i h t
    unfold findIdx at h
    rw [List.cons_append]
    unfold findIdx
    split at h
    · next heq =>
      simp only [heq, if_true]
      exact h
    · next hne =>
      rw [Option.map_eq_some'] at h
      obtain ⟨j, hj, hij⟩ := h
      simp only [hne, if_false, ih hj t, Option.map_some', hij]

/-- Appending an absent shape places it at the end of the table. -/
theorem findIdx_append_self : ∀ {s : List DIEAbbrev} {a : DIEAbbrev},
    findIdx s a = none → findIdx (s ++ [a]) a = some s.length := by
  intro s
  induction s with
  | nil =>
    intro a _
    simp [findIdx]
  | cons x xs ih =>
    intro a h
    unfold findIdx at h
    split at h
    · simp at h
    · next hne =>
      rw [Option.map_eq_none'] at h
      rw [List.cons_append]
      unfold findIdx
      simp only [hne, if_false, ih h, Option.map_some', List.length_cons]

/-- What `uniqueAbbreviation` guarantees on a duplicate-free table: the table
stays duplicate-free, only grows on the right, and the returned id is one more
than the shape's index in the new table. -/
theorem uniqueAbbreviation_spec (s : List DIEAbbrev) (a : DIEAbbrev) (hs : s.Nodup) :
    (uniqueAbbreviation s a).1.Nodup ∧
    (∃ t, (uniqueAbbreviation s a).1 = s ++ t) ∧
    (∃ k, findIdx (uniqueAbbreviation s a).1 a = some k ∧
      (uniqueAbbreviation s a).2 = k + 1) := by
  cases h : findIdx s a with
  | some i =>
    refine ⟨?_, ⟨[], by simp [uniqueAbbreviation, h]⟩, ⟨i, ?_, ?_⟩⟩
    · simpa [uniqueAbbreviation, h] using hs
    · rw [show (uniqueAbbreviation s a).1 = s by simp [uniqueAbbreviation, h]]
      exact h
    · simp [uniqueAbbreviation, h]
  | none =>
    have hnm := findIdx_none_not_mem h
    refine ⟨?_, ⟨[a], by simp [uniqueAbbreviation, h]⟩, ⟨s.length, ?_, ?_⟩⟩
    · rw [show (uniqueAbbreviation s a).1 = s ++ [a] by simp [uniqueAbbreviation, h]]
      rw [List.nodup_append]
      exact ⟨hs, List.nodup_singleton a, fun x hx hxa => hnm (by
        rw [List.mem_singleton] at hxa
        exact hxa ▸ hx)⟩
    · rw [show (uniqueAbbreviation s a).1 = s ++ [a] by simp [uniqueAbbreviation, h]]
      exact findIdx_append_self h
    · simp [uniqueAbbreviation, h]

/-- The annotated child list is empty exactly when the original was. -/
theorem computeOAL_isNil (fp : FormParams) (s : List DIEAbbrev) (cur : Nat) (ch : DIEList) :
    ADIEList.isNil ((computeOffsetsAndAbbrevsL fp s cur ch).2.2) = ch.isNil := by
  cases ch with
  | nil => rfl
  | cons d ds => rfl

mutual
/-- Abbreviation invariant of the resolver on one entry: starting from a
duplicate-free table, the final table is duplicate-free, extends the initial
one on the right, and every entry of the produced subtree carries the id
`index of its shape in the final table, plus one`. -/
theorem computeOA_abbrev_inv (fp : FormParams) (s : List DIEAbbrev) (cur : Nat) (d : DIE)
    (hs : s.Nodup) :
    ((computeOffsetsAndAbbrevs fp s cur d).1).Nodup ∧
    (∃ t, (computeOffsetsAndAbbrevs fp s cur d).1 = s ++ t) ∧
    (∀ x ∈ ((computeOffsetsAndAbbrevs fp s cur d).2.2).nodes,
      ∃ k, findIdx (computeOffsetsAndAbbrevs fp s cur d).1 x.sig = some k ∧
        x.abbrevNumber = k + 1) := by
  cases d with
  | mk i tag vs force ch =>
    obtain ⟨hn1, ⟨t1, ht1⟩, ⟨k, hk, hnum⟩⟩ :=
      uniqueAbbreviation_spec s (DIE.generateAbbrev (DIE.mk i tag vs force ch)) hs
    obtain ⟨hn2, ⟨t2, ht2⟩, hnodes⟩ :=
      computeOAL_abbrev_inv fp
        (uniqueAbbreviation s (DIE.generateAbbrev (DIE.mk i tag vs force ch))).1
        (cur + ulebSize (uniqueAbbreviation s (DIE.generateAbbrev (DIE.mk i tag vs force ch))).2
          + valuesSize fp vs) ch hn1
    simp only [computeOffsetsAndAbbrevs]
    refine ⟨hn2, ⟨t1 ++ t2, by rw [ht2, ht1, List.append_assoc]⟩, ?_⟩
    intro x hx
    simp only [ADIE.nodes, List.mem_cons] at hx
    rcases hx with rfl | hx
    · refine ⟨k, ?_, ?_⟩
      · have hsig : (ADIE.mk i tag vs force
            ((computeOffsetsAndAbbrevsL fp
              (uniqueAbbreviation s (DIE.generateAbbrev (DIE.mk i tag vs force ch))).1
              (cur + ulebSize
                  (uniqueAbbreviation s (DIE.generateAbbrev (DIE.mk i tag vs force ch))).2
                + valuesSize fp vs) ch).2.2)
            (uniqueAbbreviation s (DIE.generateAbbrev (DIE.mk i tag vs force ch))).2
            cur).sig = DIE.generateAbbrev (DIE.mk i tag vs force ch) := by
          simp [ADIE.sig, DIE.generateAbbrev, computeOAL_isNil]
        rw [hsig, ht2]
        exact findIdx_append_of_some hk t2
      · simpa [ADIE.abbrevNumber] using hnum
    · exact hnodes x hx
/-- Abbreviation invariant of the resolver on a sibling list. -/
theorem computeOAL_abbrev_inv (fp : FormParams) (s : List DIEAbbrev) (cur : Nat)
    (ds : DIEList) (hs : s.Nodup) :
    ((computeOffsetsAndAbbrevsL fp s cur ds).1).Nodup ∧
    (∃ t, (computeOffsetsAndAbbrevsL fp s cur ds).1 = s ++ t) ∧
    (∀ x ∈ ADIEList.nodesL ((computeOffsetsAndAbbrevsL fp s cur ds).2.2),
      ∃ k, findIdx (computeOffsetsAndAbbrevsL fp s cur ds).1 x.sig = some k ∧
        x.abbrevNumber = k + 1) := by
  cases ds with
  | nil =>
    exact ⟨hs, ⟨[], by simp [computeOffsetsAndAbbrevsL]⟩,
      by simp [computeOffsetsAndAbbrevsL, ADIEList.nodesL]⟩
  | cons d ds =>
    obtain ⟨hn1, ⟨t1, ht1⟩, hmem1⟩ := computeOA_abbrev_inv fp s cur d hs
    obtain ⟨hn2, ⟨t2, ht2⟩, hmem2⟩ :=
      computeOAL_abbrev_inv fp (computeOffsetsAndAbbrevs fp s cur d).1
        (computeOffsetsAndAbbrevs fp s cur d).2.1 ds hn1
    simp only [computeOffsetsAndAbbrevsL]
    refine ⟨hn2, ⟨t1 ++ t2, by rw [ht2, ht1, List.append_assoc]⟩, ?_⟩
    intro x hx
    simp only [ADIEList.nodesL, List.mem_append] at hx
    rcases hx with hx | hx
    · obtain ⟨k, hk, hnum⟩ := hmem1 x hx
      refine ⟨k, ?_, hnum⟩
      rw [ht2]
      exact findIdx_append_of_some hk t2
    · exact hmem2 x hx
end

/-- C1: two entries of the resolved tree with the same shape — same tag, same
has-children flag, same ordered (attribute kind, form) sequence — receive the
same abbreviation id, whatever their attribute values or children are. -/
theorem abbrev_sharing (fp : FormParams) (s : List DIEAbbrev) (cuOffset : Nat) (d : DIE)
    (hs : s.Nodup) (x y : ADIE)
    (hx : x ∈ ((computeOffsetsAndAbbrevs fp s cuOffset d).2.2).nodes)
    (hy : y ∈ ((computeOffsetsAndAbbrevs fp s cuOffset d).2.2).nodes)
    (hsig : x.sig = y.sig) :
    x.abbrevNumber = y.abbrevNumber := by
  obtain ⟨-, -, hmem⟩ := computeOA_abbrev_inv fp s cuOffset d hs
  obtain ⟨k, hk, hxk⟩ := hmem x hx
  obtain ⟨k', hk', hyk⟩ := hmem y hy
  rw [hsig] at hk
  rw [hk] at hk'
  have : k = k' := Option.some.inj hk'
  omega

/-- Witness for C1: in the resolved tree of `main`, the entries for members
`x` and `y` (pre-order positions 5 and 6) share one abbreviation id. -/
theorem abbrev_sharing_w :
    (mainResolved.nodes.get ⟨5, by decide⟩).abbrevNumber =
      (mainResolved.nodes.get ⟨6, by decide⟩).abbrevNumber :=
  abbrev_sharing formParams0 [] 11 cuDIE List.nodup_nil
    (mainResolved.nodes.get ⟨5, by decide⟩) (mainResolved.nodes.get ⟨6, by decide⟩)
    (List.get_mem _ _ _) (List.get_mem _ _ _) (by decide)

/-! Lemmas about reference dereferencing and the dump writer. -/

/-- With duplicate-free node identities, dereferencing an identity finds
exactly the entry carrying it. -/
theorem derefOffset_eq (root : ADIE) (tid : Nat) (y : ADIE)
    (hnd : (root.nodes.map ADIE.id).Nodup) (hy : y ∈ root.nodes) (hid : y.id = tid) :
    derefOffset root tid = y.offset := by
  unfold derefOffset
  cases hf : root.nodes.find? (fun x => x.id == tid) with
  | none =>
    rw [List.find?_eq_none] at hf
    exact absurd (by simp [hid] : (y.id == tid) = true) (hf y hy)
  | some y' =>
    have hy'mem := List.mem_of_find?_eq_some hf
    have hy'id : y'.id = tid := by simpa using List.find?_some hf
    have : y' = y := List.inj_on_of_nodup_map hnd hy'mem hy (by rw [hy'id, hid])
    rw [this]

/-- C3: the numeric value the dump renders in braces for an `EntryRef`
attribute on entry `x` targeting entry `y` of the same resolved tree equals
`y`'s finalized offset exactly — whether `y` precedes or follows `x`, and also
when `x` targets itself. -/
theorem entryRef_value (fp : FormParams) (s : List DIEAbbrev) (cuOffset : Nat) (d : DIE)
    (pool : SimpleStringPool) (tid : Nat) (x y : ADIE) (v : DIEValue)
    (hnd : ((((computeOffsetsAndAbbrevs fp s cuOffset d).2.2).nodes).map ADIE.id).Nodup)
    (_hx : x ∈ ((computeOffsetsAndAbbrevs fp s cuOffset d).2.2).nodes)
    (hv : v ∈ x.values) (hvd : v.data = .isEntry tid)
    (hy : y ∈ ((computeOffsetsAndAbbrevs fp s cuOffset d).2.2).nodes) (hyid : y.id = tid) :
    derefOffset ((computeOffsetsAndAbbrevs fp s cuOffset d).2.2) tid = y.offset ∧
    v.valueString pool ((computeOffsetsAndAbbrevs fp s cuOffset d).2.2) =
      "\x7b0x" ++ hexPad8 y.offset ++ "\x7d" := by
  have h := derefOffset_eq _ tid y hnd hy hyid
  refine ⟨h, ?_⟩
  obtain ⟨va, vf, vd⟩ := v
  simp only at hvd
  subst hvd
  simp [DIEValue.valueString, h]

/-- Witness for C3: in the resolved tree of `main`, member `x` (pre-order
position 5) holds an `EntryRef` to the `int` base type (position 1, identity
1), and the dereferenced value is the `int` entry's offset 18. -/
theorem entryRef_value_w : derefOffset mainResolved 1 = 18 :=
  ((entryRef_value formParams0 [] 11 cuDIE mainStringPool 1
      (mainResolved.nodes.get ⟨5, by decide⟩)
      (mainResolved.nodes.get ⟨1, by decide⟩)
      ⟨DW_AT_type, DW_FORM_ref4, .isEntry 1⟩
      (by decide) (List.get_mem _ _ _) (by decide) rfl
      (List.get_mem _ _ _) (by decide)).1).trans (by decide)

/-- Folding single-element appends over a list of attribute values is the
mapped block appended at once. -/
theorem foldl_append_singleton {α β : Type} (f : α → β) :
    ∀ (l : List α) (acc : List β),
      l.foldl (fun a v => a ++ [f v]) acc = acc ++ l.map f := by
  intro l
  induction l with
  | nil =>
    intro acc
    simp
  | cons x xs ih =>
    intro acc
    simp only [List.foldl_cons, List.map_cons]
    rw [ih]
    simp

mutual
/-- The streaming dump writer appends exactly the compositional document of
the entry. -/
theorem printDIE_eq (pool : SimpleStringPool) (root : ADIE) (die : ADIE) (indent : Nat)
    (acc : List String) :
    printDIE pool root die indent acc = acc ++ dieLines pool root die indent := by
  cases die with
  | mk i tag vs force ch n off =>
    simp only [printDIE, dieLines]
    rw [foldl_append_singleton]
    rw [printDIEL_eq pool root ch (indent + 2)]
    split
    · simp [List.append_assoc]
    · simp [List.append_assoc]
/-- The streaming dump writer on a sibling list appends the concatenated
documents. -/
theorem printDIEL_eq (pool : SimpleStringPool) (root : ADIE) (ds : ADIEList) (indent : Nat)
    (acc : List String) :
    printDIEL pool root ds indent acc = acc ++ dieLinesL pool root ds indent := by
  cases ds with
  | nil =>
    simp [printDIEL, dieLinesL]
  | cons d dsx =>
    show printDIEL pool root dsx indent (printDIE pool root d indent acc) = _
    rw [printDIEL_eq pool root dsx indent (printDIE pool root d indent acc)]
    rw [printDIE_eq pool root d indent acc]
    simp [dieLinesL, List.append_assoc]
end

/-- C7: the dump writer emits, after the stream so far, exactly one header
line carrying the entry's offset in fixed-width hexadecimal, tag name and
abbreviation id; then one line per attribute (attribute-kind name, decoded
value, form name, in order); then the children rendered at indentation
increased by 2; and a closing marker line exactly when the entry has
children. -/
theorem printDIE_structure (pool : SimpleStringPool) (root : ADIE) (die : ADIE)
    (indent : Nat) (acc : List String) :
    printDIE pool root die indent acc =
      acc ++ (headerLine indent die.tag die.hasChildren die.abbrevNumber die.offset ::
        (die.values.map (attrLine pool root indent) ++
          dieLinesL pool root die.children (indent + 2) ++
          (if die.hasChildren then [closingLine indent] else []))) := by
  cases die with
  | mk i tag vs force ch n off =>
    rw [printDIE_eq]
    simp [dieLines, ADIE.tag, ADIE.hasChildren, ADIE.abbrevNumber, ADIE.offset,
      ADIE.values, ADIE.children]

/-- C8: resolution is deterministic — two runs over the same unmodified tree
from identically seeded abbreviation tables produce identical sequences of
`(tag, abbreviationId, offset)` triples in traversal order. -/
theorem resolution_deterministic (fp : FormParams) (cuOffset : Nat) (d : DIE)
    (s₁ s₂ : List DIEAbbrev) (h : s₁ = s₂) :
    ((computeOffsetsAndAbbrevs fp s₁ cuOffset d).2.2).triples =
      ((computeOffsetsAndAbbrevs fp s₂ cuOffset d).2.2).triples := by
  rw [h]

/-- Witness for C8: the triples of the resolved tree of `main`, twice from a
fresh empty table, agree and are the expected pre-order sequence. -/
theorem resolution_deterministic_w :
    ((computeOffsetsAndAbbrevs formParams0 [] 11 cuDIE).2.2).triples =
      [(DW_TAG_compile_unit, 1, 11), (DW_TAG_base_type, 2, 18), (DW_TAG_base_type, 2, 25),
        (DW_TAG_pointer_type, 3, 32), (DW_TAG_structure_type, 4, 38),
        (DW_TAG_member, 5, 44), (DW_TAG_member, 5, 54), (DW_TAG_member, 5, 64)] :=
  (resolution_deterministic formParams0 11 cuDIE [] [] rfl).trans (by decide)

/-- Generic reassociation of the cons/append shape left after interning into
a non-empty buffer. -/
theorem cons_append_norm (a b c d : Char) (R : List Char) :
    ((a :: R) ++ [b] ++ [c] ++ [d]) = a :: (R ++ b :: c :: d :: []) := by
  simp

/-- Dropping one element of a non-empty list. -/
theorem drop_one_cons (a : Char) (l : List Char) : (a :: l).drop 1 = l := rfl

/-- Counterexample to C5 as stated: in the reachable pool state holding one
string of `2 ^ 32` bytes, interning the terminator-free string `"b"` returns
the truncated offset 1, and looking that offset up reads a run of `a`
characters out of the first string instead of `"b"`. -/
theorem getStringAt_add_cex :
    Reachable bigPool ∧ (∀ c ∈ ("b" : String).data, c ≠ nulChar) ∧
    ((bigPool.add "b").2).getStringAt (bigPool.add "b").1 ≠ "b" := by
  refine ⟨Reachable.step ⟨[], []⟩ bigA Reachable.empty, by decide, ?_⟩
  have hdata : bigPool.data = List.replicate (2 ^ 32) 'a' ++ [nulChar] := rfl
  have hoffs : bigPool.offsets = [(bigA, 0)] := rfl
  have hbdata : ("b" : String).data = ['b'] := rfl
  have hAdata : bigA.data = List.replicate (2 ^ 32) 'a' := rfl
  have hne : bigA ≠ "b" := by
    intro h
    have hl : bigA.data.length = ("b" : String).data.length :=
      congrArg (fun t : String => t.data.length) h
    rw [hbdata, hAdata, List.length_replicate, List.length_singleton] at hl
    exact absurd hl (by decide)
  have hlook : lookupOffset bigPool.offsets "b" = none := by
    rw [hoffs]
    show (if bigA = "b" then some 0 else lookupOffset [] "b") = none
    rw [if_neg hne]
    rfl
  have hlen1 : bigPool.data.length = 2 ^ 32 + 1 := by
    rw [hdata, List.length_append, List.length_replicate, List.length_singleton]
  have hb1 : (bigPool.add "b").1 = 1 := by
    rw [add_fst_of_lookup_none hlook, hlen1]
    decide
  have hb2 : ((bigPool.add "b").2).data =
      List.replicate (2 ^ 32) 'a' ++ [nulChar] ++ ['b'] ++ [nulChar] := by
    rw [add_data_of_lookup_none hlook, hdata, hbdata]
  have hrepl : List.replicate (2 ^ 32) 'a' = 'a' :: List.replicate 4294967295 'a' := by
    rw [show (2 : Nat) ^ 32 = 4294967295 + 1 by decide]
    rw [List.replicate_succ]
  have hA : ∀ c ∈ List.replicate 4294967295 'a', c ≠ nulChar := by
    intro c hc
    rw [List.eq_of_mem_replicate hc]
    decide
  have hlen2 : ((bigPool.add "b").2).data.length = 2 ^ 32 + 3 := by
    rw [hb2, List.length_append, List.length_append, List.length_append,
      List.length_replicate, List.length_singleton, List.length_singleton]
  have h0 : ¬ (((bigPool.add "b").2).data.length ≤ 1) := by
    rw [hlen2]
    decide
  have h1 : ((bigPool.add "b").2).getStringAt 1 =
      String.mk ((((bigPool.add "b").2).data.drop 1).takeWhile (fun c => c != nulChar)) := by
    unfold SimpleStringPool.getStringAt
    rw [if_neg h0]
  have hchain : (((bigPool.add "b").2).data.drop 1).takeWhile (fun c => c != nulChar) =
      List.replicate 4294967295 'a' := by
    rw [hb2, hrepl, cons_append_norm, drop_one_cons]
    exact takeWhile_no_nul _ _ hA
  have hget : ((bigPool.add "b").2).getStringAt 1 =
      String.mk (List.replicate 4294967295 'a') :=
    h1.trans (congrArg String.mk hchain)
  rw [hb1, hget]
  intro h
  have h2 : (String.mk (List.replicate 4294967295 'a')).data = ("b" : String).data :=
    congrArg String.data h
  rw [hbdata, string_data_mk] at h2
  have h3 := congrArg List.length h2
  rw [List.length_replicate, List.length_singleton] at h3
  exact absurd h3 (by decide)
